import Mathlib

/-!
Shallow embedding of the dolphin playlist-generation service
(`src/app.py`, `src/worker.py`, `src/migrate.py`) and proofs about it.

Numeric values are modelled by `ℚ`.  Database tables are modelled by lists
of row structures; SQL queries are translated query-clause by query-clause
into list operations (a `LEFT JOIN ... IS NULL` anti-join becomes a filter,
`ORDER BY vec <-> q` becomes a stable merge sort on squared L2 distance,
`LIMIT n` becomes `List.take n`).  Python's `random.random()` stream is an
explicit list of rationals, and the only genuinely non-rational operation
of the source (`math.exp` inside `softmax_sample`) is abstracted as a
strictly positive weight function parameter.
-/

namespace Dolphin

/-- The raw named feature map stored in `isrc_feature.feats`
(`worker.py` builds it, `app.py` reads it).  Every field the code accesses
with `feats.get(...)` is optional, mirroring the JSON dictionary. -/
structure Feats where
  bpm : Option ℚ
  onset_rate : Option ℚ
  key_key : Option String
  key_scale : Option String
  tonnetz_mean : Option (List ℚ)
  hpcp_mean : Option (List ℚ)
  mfcc_mean : Option (List ℚ)
  spectral_centroid_mean : Option ℚ
  spectral_flatness_mean : Option ℚ
  loudness_integrated : Option ℚ
  valence_pred : Option ℚ
  arousal_pred : Option ℚ
deriving DecidableEq

namespace App

/-- Dictionary `KEY_IDX` from app.py line 153: pitch-class name → index 0..11. -/
def KEY_IDX (s : String) : Option ℕ :=
  if s = "C" then some 0 else if s = "C#" then some 1
  else if s = "D" then some 2 else if s = "D#" then some 3
  else if s = "E" then some 4 else if s = "F" then some 5
  else if s = "F#" then some 6 else if s = "G" then some 7
  else if s = "G#" then some 8 else if s = "A" then some 9
  else if s = "A#" then some 10 else if s = "B" then some 11
  else none

/-- Encoder `key_onehot` from app.py lines 154-157: a 24-slot one-hot vector,
slot `idx*2 + (0 if major else 1)`; unknown key leaves all slots zero. -/
def key_onehot (k scale : Option String) : List ℚ :=
  match KEY_IDX (k.getD "").toUpper with
  | none => List.replicate 24 0
  | some idx =>
      (List.replicate 24 0).set
        (idx * 2 + (if (scale.getD "").toLower = "major" then 0 else 1)) 1

/-- Assembler `assemble_vec` from app.py lines 159-173: the fixed-order 62-dim
feature vector; missing scalars default to 0, missing affect scores
to 1/2, missing lists to zero lists of their documented lengths. -/
def assemble_vec (feats : Feats) : List ℚ :=
  [feats.bpm.getD 0, feats.onset_rate.getD 0]
    ++ key_onehot feats.key_key feats.key_scale
    ++ feats.tonnetz_mean.getD (List.replicate 6 0)
    ++ feats.hpcp_mean.getD (List.replicate 12 0)
    ++ feats.mfcc_mean.getD (List.replicate 13 0)
    ++ [feats.spectral_centroid_mean.getD 0,
        feats.spectral_flatness_mean.getD 0,
        feats.loudness_integrated.getD 0,
        feats.valence_pred.getD (1/2),
        feats.arousal_pred.getD (1/2)]

end App

namespace Worker

/-- The `obj` dictionary built by `music_features_from_preview`
(worker.py lines 40-53): after construction every field is present
(defaults already substituted), so no field is optional. -/
structure WorkerObj where
  bpm : ℚ
  onset_rate : ℚ
  key_key : Option String
  key_scale : Option String
  hpcp_mean : List ℚ
  tonnetz_mean : List ℚ
  mfcc_mean : List ℚ
  spectral_centroid_mean : ℚ
  spectral_flatness_mean : ℚ
  loudness_integrated : ℚ
  valence_pred : ℚ
  arousal_pred : ℚ
deriving DecidableEq

/-- Dictionary `idx_map` of the worker's inline `key_onehot` (worker.py line 56). -/
def idx_map (s : String) : Option ℕ :=
  if s = "C" then some 0 else if s = "C#" then some 1
  else if s = "D" then some 2 else if s = "D#" then some 3
  else if s = "E" then some 4 else if s = "F" then some 5
  else if s = "F#" then some 6 else if s = "G" then some 7
  else if s = "G#" then some 8 else if s = "A" then some 9
  else if s = "A#" then some 10 else if s = "B" then some 11
  else none

/-- The worker's inline `key_onehot` (worker.py lines 55-59). -/
def key_onehot (k scale : Option String) : List ℚ :=
  match idx_map (k.getD "").toUpper with
  | none => List.replicate 24 0
  | some idx =>
      (List.replicate 24 0).set
        (idx * 2 + (if (scale.getD "").toLower = "major" then 0 else 1)) 1

/-- The inline vector assembly of worker.py lines 61-66: same 62-slot
order as the app's `assemble_vec`, over the fully-populated `obj`. -/
def assemble (o : WorkerObj) : List ℚ :=
  [o.bpm, o.onset_rate]
    ++ key_onehot o.key_key o.key_scale
    ++ o.tonnetz_mean ++ o.hpcp_mean ++ o.mfcc_mean
    ++ [o.spectral_centroid_mean, o.spectral_flatness_mean,
        o.loudness_integrated, o.valence_pred, o.arousal_pred]

/-- The `feats` JSON the worker stores for a fully-built `obj`:
every key present, value taken from the corresponding `obj` field. -/
def featsOfObj (o : WorkerObj) : Feats :=
  { bpm := some o.bpm
    onset_rate := some o.onset_rate
    key_key := o.key_key
    key_scale := o.key_scale
    tonnetz_mean := some o.tonnetz_mean
    hpcp_mean := some o.hpcp_mean
    mfcc_mean := some o.mfcc_mean
    spectral_centroid_mean := some o.spectral_centroid_mean
    spectral_flatness_mean := some o.spectral_flatness_mean
    loudness_integrated := some o.loudness_integrated
    valence_pred := some o.valence_pred
    arousal_pred := some o.arousal_pred }

end Worker

namespace App

/-- A row of the `isrc_feature` table (migrate.py):
primary key `(isrc, feature_version)`, a 62-dim vector and the raw map. -/
structure FeatRow where
  isrc : String
  version : String
  vec : List ℚ
  feats : Feats
deriving DecidableEq

/-- A row of the `track_map` table (migrate.py): primary key
`spotify_track_id`; `isrc` is nullable. -/
structure TrackRow where
  tid : String
  isrc : Option String
deriving DecidableEq

/-- The Postgres state visible to app.py: the two content tables plus the
per-user `user_used` table as a list of `(user_id, spotify_track_id)`. -/
structure AppDb where
  feat : List FeatRow
  tracks : List TrackRow
  used : List (String × String)
deriving DecidableEq

/-- Squared L2 distance; `ORDER BY vec <-> q` (pgvector L2) sorts
identically with squared or plain L2 distance. -/
def dist2 (q v : List ℚ) : ℚ :=
  ((q.zip v).map (fun p => (p.1 - p.2) ^ 2)).sum

/-- The `nn` CTE of `nearest_tracks` (app.py lines 89-95): rows of
`isrc_feature` with the requested feature_version, ordered by distance
to the query vector (stable), truncated to 400. -/
def nnRows (db : AppDb) (ver : String) (q : List ℚ) : List FeatRow :=
  ((db.feat.filter (fun fr => fr.version == ver)).mergeSort
      (fun a b => decide (dist2 q a.vec ≤ dist2 q b.vec))).take 400

/-- The `JOIN track_map tm USING (isrc)` step of `nearest_tracks`
(app.py lines 96-98), keeping each joined row's distance. -/
def joinedPairs (db : AppDb) (ver : String) (q : List ℚ) :
    List (String × ℚ) :=
  (nnRows db ver q).flatMap (fun fr =>
    (db.tracks.filter (fun tr => tr.isrc == some fr.isrc)).map
      (fun tr => (tr.tid, dist2 q fr.vec)))

/-- Query `nearest_tracks` (app.py lines 86-104): the anti-join
`LEFT JOIN user_used ... WHERE uu.spotify_track_id IS NULL` drops ids in
the user's UsedSet, then `LIMIT limit` and projection to the id column. -/
def nearest_tracks (db : AppDb) (q : List ℚ) (uid : String) (lim : ℕ)
    (ver : String) : List String :=
  (((joinedPairs db ver q).filter
      (fun p => !(db.used.contains (uid, p.1)))).map Prod.fst).take lim

/-- Backing distance of a returned content id: resolve the id to its
`track_map` row, then that row's isrc to its `isrc_feature` vector, and
measure the squared distance to the query (0 if a lookup fails). -/
def distOf (db : AppDb) (ver : String) (q : List ℚ) (tid : String) : ℚ :=
  match db.tracks.find? (fun tr => tr.tid == tid) with
  | none => 0
  | some tr =>
    match tr.isrc with
    | none => 0
    | some i =>
      match db.feat.find? (fun fr => fr.isrc == i && fr.version == ver) with
      | none => 0
      | some fr => dist2 q fr.vec

/-- Split a list into consecutive chunks of `n` (fuel-bounded, structural);
models the `range(0, len(tids), 100)` chunking of app.py line 184. -/
def chunksOfAux (n : ℕ) : ℕ → List α → List (List α)
  | 0, _ => []
  | _, [] => []
  | fuel + 1, l => l.take n :: chunksOfAux n fuel (l.drop n)

def chunksOf (n : ℕ) (l : List α) : List (List α) :=
  chunksOfAux n l.length l

/-- Componentwise arithmetic mean, `np.mean(np.array(vecs), axis=0)`
(app.py line 198), for a list of equal-length vectors. -/
def vecMean (vs : List (List ℚ)) : List ℚ :=
  match vs with
  | [] => []
  | v0 :: _ =>
    (List.range v0.length).map
      (fun j => ((vs.map (fun v => v.getD j 0)).sum) / (vs.length : ℚ))

/-- Lookup `mp.get(t)` in app.py line 188: Postgres lookup of the isrc of a
spotify track id, treating SQL NULL and the empty string as Python-falsy. -/
def isrcLookup (db : AppDb) (t : String) : Option String :=
  match db.tracks.find? (fun tr => tr.tid == t) with
  | none => none
  | some tr =>
    match tr.isrc with
    | none => none
    | some s => if s.isEmpty then none else some s

/-- The `vecs` list of `centroid_for_cluster` (app.py lines 182-195):
per 100-chunk of the cluster's track ids, resolve ids to isrcs, then
assemble a vector from every `isrc_feature` row (version `essentia_v1`)
whose isrc occurs among them, in table order. -/
def collectVecs (db : AppDb) (tids : List String) : List (List ℚ) :=
  (chunksOf 100 tids).flatMap (fun chunk =>
    let isrcs := chunk.filterMap (fun t => isrcLookup db t)
    (db.feat.filter
        (fun fr => fr.version == "essentia_v1" && isrcs.contains fr.isrc)).map
      (fun fr => assemble_vec fr.feats))

/-- Function `centroid_for_cluster` (app.py lines 175-198): tracks from the user's
Redis label map with the given cluster label, averaged in raw
(unstandardized) assembled-feature space; `None` when nothing matches. -/
def centroid_for_cluster (db : AppDb) (labels : List (String × ℕ))
    (cluster_id : ℕ) : Option (List ℚ) :=
  let tids := (labels.filter (fun p => p.2 == cluster_id)).map Prod.fst
  if tids.isEmpty then none
  else
    let vecs := collectVecs db tids
    if vecs.isEmpty then none else some (vecMean vecs)

/-- The query vector `populate` (app.py lines 392-396) hands to
`nearest_tracks` for cluster `i`: the centroid, completely unmodified. -/
def populate_query (db : AppDb) (labels : List (String × ℕ)) (i : ℕ) :
    Option (List ℚ) :=
  centroid_for_cluster db labels i

/-- The inner scan of `softmax_sample` (app.py lines 368-371): walk the
candidate list accumulating normalized weights `w p.2 / s`; at the first
candidate whose cumulative weight reaches `rnum`, return it together with
the list with that occurrence popped (`items.pop(i)`). -/
def pickScan (w : ℚ → ℚ) (s : ℚ) (rnum : ℚ) :
    ℚ → List (α × ℚ) → Option (α × List (α × ℚ))
  | _, [] => none
  | cum, p :: rest =>
    if rnum ≤ cum + w p.2 / s then some (p.1, rest)
    else (pickScan w s rnum (cum + w p.2 / s) rest).map
      (fun q => (q.1, p :: q.2))

/-- The `while` loop of `softmax_sample` (app.py lines 365-371), consuming
one `random.random()` draw per iteration from the stream `rands`.
An iteration whose scan selects nothing (impossible in exact arithmetic
when every draw is < 1 and weights are positive) retries with the next
draw, as the source loop does.  The recursion is bounded by the modelled
randomness stream. -/
def softmaxGo (w : ℚ → ℚ) :
    List ℚ → List (α × ℚ) → ℕ → List α
  | _, [], _ => []
  | [], _ :: _, _ => []
  | rnum :: rs, p :: ps, k =>
    if k = 0 then []
    else
      let s := ((p :: ps).map (fun q => w q.2)).sum
      match pickScan w s rnum 0 (p :: ps) with
      | some (a, rest) => a :: softmaxGo w rs rest (k - 1)
      | none => softmaxGo w rs (p :: ps) k

/-- Sampler `softmax_sample(cands, k, tau)` (app.py lines 363-372).  The weight
function `w` stands for `fun d => exp (-d / max tau 1e-6)` — the single
non-rational operation of the source; every theorem below assumes only
its strict positivity, which holds for the exponential. -/
def softmax_sample (w : ℚ → ℚ) (cands : List (α × ℚ)) (k : ℕ)
    (rands : List ℚ) : List α :=
  softmaxGo w rands cands k

/-- Per-track fitness of `iterate` (app.py lines 449-455), given the
track's saved flag, whether it was recently played, and whether it is
still present in the externally materialized playlist. -/
def score (saved played inNow : Bool) : ℤ :=
  (if saved then 3 else 0)
    + (if played then 2 else 0)
    + (if !inNow then -4 else 0)
    + (if !played && !saved then -2 else 0)

/-- The `fitness` mapping of `iterate` (app.py lines 448-455) in insertion
order: one `(tid, score)` pair per generation entry, the saved flag taken
positionally from the `saved` list. -/
def fitnessList (last : List String) (saved : List Bool)
    (played now_ids : List String) : List (String × ℤ) :=
  (last.zip saved).map
    (fun p => (p.1, score p.2 (played.contains p.1) (now_ids.contains p.1)))

/-- Round `a / 2^k` to the nearest integer, ties to even — the IEEE-754
significand rounding step. -/
def rne (a : ℕ) (k : ℕ) : ℕ :=
  let q := a / 2 ^ k
  let r := a % 2 ^ k
  if 2 * r < 2 ^ k then q
  else if 2 ^ k < 2 * r then q + 1
  else if q % 2 = 0 then q else q + 1

/-- The IEEE-754 binary64 value of the Python literal `0.7`:
`6305039478318694 * 2 ^ (-53)`. -/
def float07num : ℕ := 6305039478318694

/-- The exact value of the Python expression `n * 0.7` under IEEE-754
binary64 arithmetic: the true product `n * float07num / 2^53` rounded to
53 significant bits (round to nearest, ties to even). -/
def pyMul07 (n : ℕ) : ℚ :=
  let a := n * float07num
  let k := (Nat.log2 a + 1) - 53
  ((rne a k * 2 ^ k : ℕ) : ℚ) / 2 ^ 53

/-- Count `keep_n = max(1, int(len(last)*0.7))` (app.py line 457); `int()` on a
non-negative float truncates, i.e. floors. -/
def keep_n (n : ℕ) : ℕ :=
  max 1 (Int.toNat ⌊pyMul07 n⌋)

/-- Sort `sorted(fitness.items(), key=lambda kv: kv[1], reverse=True)`
(app.py line 458): Python's sort is a stable merge sort; descending on
the score component, ties keeping insertion order. -/
def pySortedDesc (l : List (String × ℤ)) : List (String × ℤ) :=
  l.mergeSort (fun a b => decide (b.2 ≤ a.2))

/-- The elite survivor set of `iterate` (app.py lines 457-458): ids of the
first `keep_n` entries of the stable descending sort of the fitness map. -/
def eliteOf (last : List String) (saved : List Bool)
    (played now_ids : List String) : List String :=
  ((pySortedDesc (fitnessList last saved played now_ids)).take
      (keep_n last.length)).map Prod.fst

/-- One `executemany` of
`INSERT INTO user_used ... ON CONFLICT DO NOTHING` (app.py lines 404-406
and 473-475): append each new `(user_id, spotify_track_id)` pair unless
the key is already present. -/
def markUsed (used : List (String × String)) (uid : String)
    (picks : List String) : List (String × String) :=
  picks.foldl
    (fun acc t => if acc.contains (uid, t) then acc else acc ++ [(uid, t)])
    used

/-- Effect of one `populate` cluster iteration (app.py lines 399-406) on
the `user_used` table: the insert runs only under `if picks:`. -/
def populate_used_update (used : List (String × String)) (uid : String)
    (picks : List String) : List (String × String) :=
  if picks.isEmpty then used else markUsed used uid picks

/-- Effect of one `iterate` cluster iteration (app.py lines 469-475) on
the `user_used` table: the insert runs only under `if newlist:`. -/
def iterate_used_update (used : List (String × String)) (uid : String)
    (newlist : List String) : List (String × String) :=
  if newlist.isEmpty then used else markUsed used uid newlist

end App

namespace Worker

/-- A queued extraction job (worker.py line 84, enqueued by app.py 246-248). -/
structure Job where
  spotify_id : String
  isrc : String
  title : String
  artist : String
  previews : List String
deriving DecidableEq

/-- An HTTP response as `run_once` inspects it: the `ok` flag and the body
bytes.  A `requests` exception is modelled as `none` from the fetcher. -/
structure Resp where
  ok : Bool
  content : List ℕ
deriving DecidableEq

/-- A row of `isrc_feature` as the worker writes it (worker.py 69-77). -/
structure WFeatRow where
  isrc : String
  version : String
  extractor : String
  vec : List ℚ
  feats : Feats
deriving DecidableEq

/-- A row of `track_map` as the worker writes it (worker.py 101-106). -/
structure WTrackRow where
  tid : String
  isrc : String
  title : String
  artist : String
deriving DecidableEq

/-- The worker-visible state: the Redis job queue and the two Postgres
tables it writes. -/
structure WState where
  jobs : List Job
  feat : List WFeatRow
  tracks : List WTrackRow
deriving DecidableEq

/-- The preview-URL loop of `run_once` (worker.py lines 86-92): first URL
whose fetch raises no exception, has `resp.ok`, a non-empty body, and a
body longer than the 10000-byte floor. -/
def firstGoodPreview (fetch : String → Option Resp) :
    List String → Option (List ℕ)
  | [] => none
  | url :: rest =>
    match fetch url with
    | none => firstGoodPreview fetch rest
    | some resp =>
      if resp.ok && !resp.content.isEmpty
          && decide (10000 < resp.content.length) then
        some resp.content
      else firstGoodPreview fetch rest

/-- Function `music_features_from_preview` (worker.py lines 20-67): the external
analyzer plus default substitution is the black-box `extract`; the
returned vector is the inline 62-dim assembly of the returned map. -/
def music_features_from_preview (extract : List ℕ → WorkerObj)
    (mp3 : List ℕ) : WorkerObj × List ℚ :=
  let o := extract mp3
  (o, assemble o)

/-- Upsert `upsert_isrc_feature` (worker.py lines 69-77):
`ON CONFLICT (isrc, feature_version) DO UPDATE`. -/
def upsert_isrc_feature (tbl : List WFeatRow) (row : WFeatRow) :
    List WFeatRow :=
  if tbl.any (fun r => r.isrc == row.isrc && r.version == row.version) then
    tbl.map (fun r =>
      if r.isrc == row.isrc && r.version == row.version then row else r)
  else tbl ++ [row]

/-- The worker's track_map upsert (worker.py lines 101-106):
`ON CONFLICT (spotify_track_id) DO UPDATE`. -/
def upsert_track_map (tbl : List WTrackRow) (row : WTrackRow) :
    List WTrackRow :=
  if tbl.any (fun r => r.tid == row.tid) then
    tbl.map (fun r => if r.tid == row.tid then row else r)
  else tbl ++ [row]

/-- Function `run_once` (worker.py lines 79-106): destructive `lpop`, preview
fetch loop, and on success the two upserts.  A job whose every preview
fails is simply dropped; the function is total, so no error reaches the
caller. -/
def run_once (fetch : String → Option Resp)
    (extract : List ℕ → WorkerObj) (st : WState) : WState :=
  match st.jobs with
  | [] => st
  | job :: rest =>
    match firstGoodPreview fetch job.previews with
    | none => { st with jobs := rest }
    | some mp3 =>
      let fv := music_features_from_preview extract mp3
      { jobs := rest
        feat := upsert_isrc_feature st.feat
          { isrc := job.isrc, version := "essentia_v1"
            extractor := "essentia2.1b6+deam0"
            vec := fv.2, feats := featsOfObj fv.1 }
        tracks := upsert_track_map st.tracks
          { tid := job.spotify_id, isrc := job.isrc
            title := job.title, artist := job.artist } }

end Worker

/-- The specification's additive fitness formula, written from the spec's
words for comparison with the code's `score`: "+3 if saved, +2 if played,
−4 if removed from the playlist, −2 if neither played nor saved", the
four signals being independent and summed. -/
def specFitness (saved played removed : Bool) : ℤ :=
  (if saved then 3 else 0)
    + (if played then 2 else 0)
    + (if removed then -4 else 0)
    + (if played = false ∧ saved = false then -2 else 0)

/-- A feature map with every optional field absent (witness fixture). -/
def emptyFeats : Feats :=
  { bpm := none, onset_rate := none, key_key := none, key_scale := none
    tonnetz_mean := none, hpcp_mean := none, mfcc_mean := none
    spectral_centroid_mean := none, spectral_flatness_mean := none
    loudness_integrated := none, valence_pred := none, arousal_pred := none }

/-- One-track database used by the C1 witness. -/
def c1Db : App.AppDb :=
  { feat := [{ isrc := "i1", version := "essentia_v1", vec := [0]
               feats := emptyFeats }]
    tracks := [{ tid := "t1", isrc := some "i1" }]
    used := [] }

/-- One-track database used by the C2 witness. -/
def c2Db : App.AppDb :=
  { feat := [{ isrc := "i1", version := "essentia_v1", vec := [0]
               feats := emptyFeats }]
    tracks := [{ tid := "t1", isrc := some "i1" }]
    used := [] }

/-- A feature map whose tempo is 300 BPM — outside the "physically valid"
[0, 250] range the spec claims the Population Engine clips to. -/
def c5Feats : Feats :=
  { bpm := some 300, onset_rate := none, key_key := none, key_scale := none
    tonnetz_mean := none, hpcp_mean := none, mfcc_mean := none
    spectral_centroid_mean := none, spectral_flatness_mean := none
    loudness_integrated := none, valence_pred := none, arousal_pred := none }

/-- Database for the C5 counterexample: one labelled track whose stored
feature map carries a 300 BPM tempo. -/
def c5Db : App.AppDb :=
  { feat := [{ isrc := "i1", version := "essentia_v1", vec := []
               feats := c5Feats }]
    tracks := [{ tid := "t1", isrc := some "i1" }]
    used := [] }

/-- Cluster label map for the C5 counterexample: the track is in cluster 0. -/
def c5Labels : List (String × ℕ) := [("t1", 0)]

/-- A fully-zero analyzer output (fixture for the C8 witness). -/
def zeroObj : Worker.WorkerObj :=
  { bpm := 0, onset_rate := 0, key_key := none, key_scale := none
    hpcp_mean := [], tonnetz_mean := [], mfcc_mean := []
    spectral_centroid_mean := 0, spectral_flatness_mean := 0
    loudness_integrated := 0, valence_pred := 0, arousal_pred := 0 }

/-- A job whose single preview URL will fail (fixture for the C8 witness). -/
def c8Job : Worker.Job :=
  { spotify_id := "s1", isrc := "i1", title := "t", artist := "a"
    previews := ["http://dead.example/x.mp3"] }

theorem markUsed_cons (used : List (String × String)) (uid t : String)
    (ts : List String) :
    App.markUsed used uid (t :: ts)
      = App.markUsed
          (if used.contains (uid, t) then used else used ++ [(uid, t)])
          uid ts := rfl

theorem mem_markUsed_of_mem {used : List (String × String)} {uid : String}
    {x : String × String} (picks : List String) (hx : x ∈ used) :
    x ∈ App.markUsed used uid picks := by
  induction picks generalizing used with
  | nil => exact hx
  | cons t ts ih =>
    rw [markUsed_cons]
    apply ih
    split
    · exact hx
    · exact List.mem_append_left _ hx

theorem mem_markUsed_of_pick {uid t : String} {picks : List String}
    (used : List (String × String)) (ht : t ∈ picks) :
    (uid, t) ∈ App.markUsed used uid picks := by
  induction picks generalizing used with
  | nil => cases ht
  | cons u ts ih =>
    rw [markUsed_cons]
    rcases List.mem_cons.mp ht with rfl | hts
    · apply mem_markUsed_of_mem
      split
      · next h => exact List.elem_iff.mp h
      · exact List.mem_append_right _ (List.mem_singleton.mpr rfl)
    · exact ih _ hts

/-- C4: for every track of the current generation, the fitness computed by
`iterate` equals the spec's sum of independent signals: +3 if saved, +2 if
played, −4 if removed from the materialized playlist (i.e. no longer among
`now_ids`), −2 if neither played nor saved — so a track both saved and
played receives both bonuses. -/
theorem c4_fitness_additive (last : List String) (saved : List Bool)
    (played now_ids : List String) :
    App.fitnessList last saved played now_ids
      = (last.zip saved).map
          (fun p => (p.1,
            specFitness p.2 (played.contains p.1)
              (!now_ids.contains p.1))) := by
  have hpt : ∀ sv pl nw : Bool,
      App.score sv pl nw = specFitness sv pl (!nw) := by decide
  unfold App.fitnessList
  exact List.map_congr_left (fun p _ => by rw [hpt])

theorem worker_key_onehot_eq_app (k scale : Option String) :
    Worker.key_onehot k scale = App.key_onehot k scale := rfl

/-- C9: the app's `assemble_vec` applied to the feature map the worker
stores produces exactly the vector the worker assembled inline — the two
assembler implementations agree on every analyzer output (same 62-slot
order, same key one-hot, same values). -/
theorem c9_assemblers_equivalent (o : Worker.WorkerObj) :
    Worker.assemble o = App.assemble_vec (Worker.featsOfObj o) := by
  simp [Worker.assemble, App.assemble_vec, Worker.featsOfObj,
    worker_key_onehot_eq_app]

/-- C10: the per-user UsedSet only grows.  Both writes to `user_used` —
the one in `populate` and the one in `iterate` — keep every existing row
and insert every content id of the generation they materialize (when a
non-empty generation is materialized at all); neither ever removes a row,
and they are the only operations of the system touching `user_used`. -/
theorem c10_used_set_monotone (used : List (String × String))
    (uid : String) (picks newlist : List String) :
    (∀ x ∈ used, x ∈ App.populate_used_update used uid picks)
    ∧ (∀ t ∈ picks, (uid, t) ∈ App.populate_used_update used uid picks)
    ∧ (∀ x ∈ used, x ∈ App.iterate_used_update used uid newlist)
    ∧ (∀ t ∈ newlist, (uid, t) ∈ App.iterate_used_update used uid newlist) := by
  refine ⟨?_, ?_, ?_, ?_⟩
  · intro x hx
    unfold App.populate_used_update
    split
    · exact hx
    · exact mem_markUsed_of_mem _ hx
  · intro t ht
    unfold App.populate_used_update
    split
    · next h => rw [List.isEmpty_iff] at h; simp [h] at ht
    · exact mem_markUsed_of_pick _ ht
  · intro x hx
    unfold App.iterate_used_update
    split
    · exact hx
    · exact mem_markUsed_of_mem _ hx
  · intro t ht
    unfold App.iterate_used_update
    split
    · next h => rw [List.isEmpty_iff] at h; simp [h] at ht
    · exact mem_markUsed_of_pick _ ht

/-- Witness for C10 at a concrete state: the pre-existing row survives
both updates and the newly materialized id is inserted by both. -/
theorem c10_witness :
    (("u", "x") ∈ App.populate_used_update [("u", "x")] "u" ["y"])
    ∧ (("u", "y") ∈ App.populate_used_update [("u", "x")] "u" ["y"])
    ∧ (("u", "x") ∈ App.iterate_used_update [("u", "x")] "u" ["y"])
    ∧ (("u", "y") ∈ App.iterate_used_update [("u", "x")] "u" ["y"]) :=
  ⟨(c10_used_set_monotone [("u", "x")] "u" ["y"] ["y"]).1 _ (by decide)
  , (c10_used_set_monotone [("u", "x")] "u" ["y"] ["y"]).2.1 _ (by decide)
  , (c10_used_set_monotone [("u", "x")] "u" ["y"] ["y"]).2.2.1 _ (by decide)
  , (c10_used_set_monotone [("u", "x")] "u" ["y"] ["y"]).2.2.2 _ (by decide)⟩

/-- C1: for every database state, query vector, user and limit, the
Vector Store's nearest query never returns a content id present in that
user's UsedSet, and the returned list has length at most `limit`. -/
theorem c1_nearest_excludes_used (db : App.AppDb) (q : List ℚ)
    (uid : String) (lim : ℕ) (ver : String) :
    (∀ t ∈ App.nearest_tracks db q uid lim ver, (uid, t) ∉ db.used)
    ∧ (App.nearest_tracks db q uid lim ver).length ≤ lim := by
  constructor
  · intro t ht hmem
    unfold App.nearest_tracks at ht
    obtain ⟨p, hp, hpt⟩ := List.mem_map.mp (List.mem_of_mem_take ht)
    have hfalse : db.used.contains (uid, p.1) = false := by
      simpa using (List.mem_filter.mp hp).2
    rw [hpt] at hfalse
    rw [List.contains_eq_any_beq] at hfalse
    have : db.used.any ((uid, t) == ·) = true :=
      List.any_eq_true.mpr ⟨(uid, t), hmem, by simp⟩
    rw [this] at hfalse
    cases hfalse
  · exact List.length_take_le _ _

/-- Witness for C1: on a one-track database with an empty UsedSet the
query returns "t1", which the theorem certifies as unused, and the length
bound holds. -/
theorem c1_witness :
    ¬("u", "t1") ∈ c1Db.used
    ∧ (App.nearest_tracks c1Db [0] "u" 5 "essentia_v1").length ≤ 5 :=
  ⟨fun h => (c1_nearest_excludes_used c1Db [0] "u" 5 "essentia_v1").1 "t1"
      (by simp [App.nearest_tracks, App.joinedPairs, App.nnRows, c1Db,
        List.mergeSort]) h
  , (c1_nearest_excludes_used c1Db [0] "u" 5 "essentia_v1").2⟩

theorem key_onehot_length (k scale : Option String) :
    (App.key_onehot k scale).length = 24 := by
  unfold App.key_onehot
  split <;> simp

/-- C6: whenever each present list-valued field has its documented length
(6 for the tonal centroid, 12 for the chroma, 13 for the timbre
coefficients), the Feature Assembler returns exactly 62 elements no
matter which optional keys are present; a missing scalar behaves as an
explicit 0 and a missing affect score as an explicit 1/2. -/
theorem c6_assemble_dim_and_defaults (f : Feats)
    (h6 : ∀ l, f.tonnetz_mean = some l → l.length = 6)
    (h12 : ∀ l, f.hpcp_mean = some l → l.length = 12)
    (h13 : ∀ l, f.mfcc_mean = some l → l.length = 13) :
    (App.assemble_vec f).length = 62
    ∧ (f.bpm = none →
        App.assemble_vec f = App.assemble_vec { f with bpm := some 0 })
    ∧ (f.onset_rate = none →
        App.assemble_vec f
          = App.assemble_vec { f with onset_rate := some 0 })
    ∧ (f.spectral_centroid_mean = none →
        App.assemble_vec f
          = App.assemble_vec { f with spectral_centroid_mean := some 0 })
    ∧ (f.spectral_flatness_mean = none →
        App.assemble_vec f
          = App.assemble_vec { f with spectral_flatness_mean := some 0 })
    ∧ (f.loudness_integrated = none →
        App.assemble_vec f
          = App.assemble_vec { f with loudness_integrated := some 0 })
    ∧ (f.valence_pred = none →
        App.assemble_vec f
          = App.assemble_vec { f with valence_pred := some (1/2) })
    ∧ (f.arousal_pred = none →
        App.assemble_vec f
          = App.assemble_vec { f with arousal_pred := some (1/2) }) := by
  refine ⟨?_, ?_, ?_, ?_, ?_, ?_, ?_, ?_⟩
  · have e6 : (f.tonnetz_mean.getD (List.replicate 6 0)).length = 6 := by
      cases htm : f.tonnetz_mean with
      | none => simp
      | some l => simpa using h6 l htm
    have e12 : (f.hpcp_mean.getD (List.replicate 12 0)).length = 12 := by
      cases htm : f.hpcp_mean with
      | none => simp
      | some l => simpa using h12 l htm
    have e13 : (f.mfcc_mean.getD (List.replicate 13 0)).length = 13 := by
      cases htm : f.mfcc_mean with
      | none => simp
      | some l => simpa using h13 l htm
    simp only [App.assemble_vec, List.length_append, List.length_cons,
      List.length_nil, key_onehot_length, e6, e12, e13]
  all_goals intro h
  all_goals simp [App.assemble_vec, h]

/-- Witness for C6: the all-absent feature map satisfies the length
hypotheses vacuously; the assembled vector has 62 entries and all the
default substitutions hold. -/
theorem c6_witness :
    (∀ l, emptyFeats.tonnetz_mean = some l → l.length = 6)
    ∧ ((App.assemble_vec emptyFeats).length = 62
        ∧ (emptyFeats.bpm = none →
            App.assemble_vec emptyFeats
              = App.assemble_vec { emptyFeats with bpm := some 0 })
        ∧ (emptyFeats.onset_rate = none →
            App.assemble_vec emptyFeats
              = App.assemble_vec { emptyFeats with onset_rate := some 0 })
        ∧ (emptyFeats.spectral_centroid_mean = none →
            App.assemble_vec emptyFeats
              = App.assemble_vec
                  { emptyFeats with spectral_centroid_mean := some 0 })
        ∧ (emptyFeats.spectral_flatness_mean = none →
            App.assemble_vec emptyFeats
              = App.assemble_vec
                  { emptyFeats with spectral_flatness_mean := some 0 })
        ∧ (emptyFeats.loudness_integrated = none →
            App.assemble_vec emptyFeats
              = App.assemble_vec
                  { emptyFeats with loudness_integrated := some 0 })
        ∧ (emptyFeats.valence_pred = none →
            App.assemble_vec emptyFeats
              = App.assemble_vec
                  { emptyFeats with valence_pred := some (1/2) })
        ∧ (emptyFeats.arousal_pred = none →
            App.assemble_vec emptyFeats
              = App.assemble_vec
                  { emptyFeats with arousal_pred := some (1/2) })) :=
  ⟨by simp [emptyFeats]
  , c6_assemble_dim_and_defaults emptyFeats
      (by simp [emptyFeats]) (by simp [emptyFeats]) (by simp [emptyFeats])⟩

theorem firstGoodPreview_eq_none {fetch : String → Option Worker.Resp}
    {urls : List String}
    (h : ∀ url ∈ urls, ∀ resp, fetch url = some resp →
      ¬(resp.ok = true ∧ 10000 < resp.content.length)) :
    Worker.firstGoodPreview fetch urls = none := by
  induction urls with
  | nil => rfl
  | cons url rest ih =>
    unfold Worker.firstGoodPreview
    cases hf : fetch url with
    | none => exact ih (fun u hu => h u (List.mem_cons_of_mem _ hu))
    | some resp =>
      have hbad := h url (List.mem_cons_self _ _) resp hf
      have hcond : (resp.ok && !resp.content.isEmpty
          && decide (10000 < resp.content.length)) = false := by
        by_cases hok : resp.ok = true
        · by_cases hlen : 10000 < resp.content.length
          · exact absurd ⟨hok, hlen⟩ hbad
          · simp [hlen]
        · simp [hok]
      simp [hcond, ih (fun u hu => h u (List.mem_cons_of_mem _ hu))]

/-- C8: when every candidate preview URL of the job at the head of the
queue fails the byte-size floor (exception, non-ok status, or a body of
at most 10000 bytes), `run_once` drops the job: the `isrc_feature` and
`track_map` tables are untouched, the job is not re-enqueued, and — the
function being total — no error propagates to the caller. -/
theorem c8_failed_previews_drop_job (fetch : String → Option Worker.Resp)
    (extract : List ℕ → Worker.WorkerObj) (job : Worker.Job)
    (rest : List Worker.Job) (feat : List Worker.WFeatRow)
    (tracks : List Worker.WTrackRow)
    (h : ∀ url ∈ job.previews, ∀ resp, fetch url = some resp →
      ¬(resp.ok = true ∧ 10000 < resp.content.length)) :
    Worker.run_once fetch extract
        { jobs := job :: rest, feat := feat, tracks := tracks }
      = { jobs := rest, feat := feat, tracks := tracks } := by
  simp [Worker.run_once, firstGoodPreview_eq_none h]

/-- Witness for C8: a job whose only preview URL raises on fetch is
dropped from a concrete state, leaving both tables empty. -/
theorem c8_witness :
    (∀ url ∈ c8Job.previews, ∀ resp, (fun _ => none : String → Option Worker.Resp) url = some resp →
      ¬(resp.ok = true ∧ 10000 < resp.content.length))
    ∧ Worker.run_once (fun _ => none) (fun _ => zeroObj)
        { jobs := [c8Job], feat := [], tracks := [] }
      = { jobs := [], feat := [], tracks := [] } :=
  ⟨(fun _ _ resp hresp => by cases hresp)
  , c8_failed_previews_drop_job (fun _ => none) (fun _ => zeroObj) c8Job
      [] [] [] (fun _ _ resp hresp => by cases hresp)⟩

theorem sum_map_div {α : Type} (w : ℚ → ℚ) (s : ℚ) (l : List (α × ℚ)) :
    (l.map (fun p => w p.2 / s)).sum = (l.map (fun p => w p.2)).sum / s := by
  induction l with
  | nil => simp
  | cons p ps ih => simp [ih, add_div]

theorem pickScan_isSome {α : Type} {w : ℚ → ℚ} {s rnum : ℚ}
    (items : List (α × ℚ)) :
    ∀ cum : ℚ, items ≠ [] →
    rnum ≤ cum + ((items.map (fun p => w p.2 / s)).sum) →
    (App.pickScan w s rnum cum items).isSome = true := by
  induction items with
  | nil => intro cum h; cases h rfl
  | cons p ps ih =>
    intro cum _ hle
    unfold App.pickScan
    by_cases hc : rnum ≤ cum + w p.2 / s
    · simp [hc]
    · rw [if_neg hc]
      cases ps with
      | nil =>
        exfalso
        apply hc
        simpa using hle
      | cons q qs =>
        rw [Option.isSome_map']
        apply ih _ (by simp)
        have : cum + ((p :: q :: qs).map (fun p => w p.2 / s)).sum
            = (cum + w p.2 / s) + ((q :: qs).map (fun p => w p.2 / s)).sum := by
          simp [List.sum_cons]
          ring
        linarith [hle, this.ge, this.le]

theorem pickScan_split {α : Type} {w : ℚ → ℚ} {s rnum : ℚ}
    (items : List (α × ℚ)) :
    ∀ (cum : ℚ) (a : α) (rest : List (α × ℚ)),
    App.pickScan w s rnum cum items = some (a, rest) →
    ∃ pre d post, items = pre ++ (a, d) :: post ∧ rest = pre ++ post := by
  induction items with
  | nil => intro cum a rest h; cases h
  | cons p ps ih =>
    intro cum a rest h
    unfold App.pickScan at h
    by_cases hc : rnum ≤ cum + w p.2 / s
    · rw [if_pos hc] at h
      have h' := Option.some.inj h
      injection h' with ha hrest
      exact ⟨[], p.2, ps, by simp [← ha], by simp [hrest]⟩
    · rw [if_neg hc, Option.map_eq_some'] at h
      obtain ⟨⟨a', rest'⟩, hps, heq⟩ := h
      simp only at heq
      injection heq with ha hrest
      obtain ⟨pre, d, post, hitems, hrest'⟩ := ih _ _ _ hps
      exact ⟨p :: pre, d, post, by simp [hitems, ha]
        , by simp [← hrest, hrest', ha]⟩

theorem softmaxGo_spec {α : Type} (w : ℚ → ℚ) :
    ∀ (rands : List ℚ) (items : List (α × ℚ)) (k : ℕ),
    (∀ p ∈ items, 0 < w p.2) →
    (∀ r ∈ rands, r < 1) →
    min k items.length ≤ rands.length →
    (items.map Prod.fst).Nodup →
    (App.softmaxGo w rands items k).length = min k items.length
    ∧ (App.softmaxGo w rands items k).Nodup
    ∧ (∀ a ∈ App.softmaxGo w rands items k, a ∈ items.map Prod.fst) := by
  intro rands
  induction rands with
  | nil =>
    intro items k hw hr hlen hnd
    cases items with
    | nil => simp [App.softmaxGo]
    | cons p ps =>
      simp only [List.length_nil, Nat.le_zero] at hlen
      rw [show App.softmaxGo w [] (p :: ps) k = [] from rfl]
      exact ⟨by simp [hlen.symm], by simp, by simp⟩
  | cons rnum rs ih =>
    intro items k hw hr hlen hnd
    cases items with
    | nil => simp [App.softmaxGo]
    | cons p ps =>
      cases k with
      | zero => simp [App.softmaxGo]
      | succ k' =>
        have hspos : (0:ℚ) < ((p :: ps).map (fun x => w x.2)).sum :=
          List.sum_pos _ (by
            intro x hx
            obtain ⟨y, hy, rfl⟩ := List.mem_map.mp hx
            exact hw y hy) (by simp)

        have hsome := @pickScan_isSome _ w
          (((p :: ps).map (fun x => w x.2)).sum) rnum
          (p :: ps) 0 (by simp)
          (by
            rw [sum_map_div, div_self (ne_of_gt hspos)]
            have : rnum < 1 := hr rnum (List.mem_cons_self _ _)
            linarith)
        obtain ⟨⟨a, rest⟩, hpick⟩ := Option.isSome_iff_exists.mp hsome
        obtain ⟨pre, d, post, hitems, hrest⟩ := pickScan_split _ _ _ _ hpick
        have hstep : App.softmaxGo w (rnum :: rs) (p :: ps) (k' + 1)
            = a :: App.softmaxGo w rs rest k' := by
          conv_lhs => unfold App.softmaxGo
          rw [if_neg (Nat.succ_ne_zero k')]
          simp only [hpick, Nat.add_sub_cancel]
        have hsub : List.Sublist rest (p :: ps) := by
          rw [hitems, hrest]
          exact (List.sublist_cons_self _ _).append_left pre
        have hlength : (p :: ps).length = rest.length + 1 := by
          rw [hitems, hrest]
          simp only [List.length_append, List.length_cons]
          omega
        have hw' : ∀ x ∈ rest, 0 < w x.2 := fun x hx => hw x (hsub.subset hx)
        have hr' : ∀ r ∈ rs, r < 1 := fun r hrr =>
          hr r (List.mem_cons_of_mem _ hrr)
        have hlen' : min k' rest.length ≤ rs.length := by
          simp only [List.length_cons] at hlen hlength
          omega
        have hnd' : (rest.map Prod.fst).Nodup :=
          (hsub.map Prod.fst).nodup hnd
        obtain ⟨ihlen, ihnd, ihmem⟩ := ih rest k' hw' hr' hlen' hnd'
        have hamem : a ∈ (p :: ps).map Prod.fst := by
          rw [hitems]
          simp
        have hanot : a ∉ rest.map Prod.fst := by
          rw [hitems] at hnd
          rw [hrest]
          simp only [List.map_append, List.map_cons] at hnd ⊢
          rw [List.nodup_append] at hnd
          obtain ⟨h1, h2, hdisj⟩ := hnd
          rw [List.mem_append]
          rintro (hpre | hpost)
          · exact hdisj hpre (List.mem_cons_self _ _)
          · exact (List.nodup_cons.mp h2).1 hpost
        refine ⟨?_, ?_, ?_⟩
        · rw [hstep]
          simp only [List.length_cons, ihlen, hlength]
          omega
        · rw [hstep]
          exact List.nodup_cons.mpr ⟨fun hmem => hanot (ihmem a hmem), ihnd⟩
        · rw [hstep]
          intro x hx
          rcases List.mem_cons.mp hx with rfl | hx'
          · exact hamem
          · exact (hsub.map Prod.fst).subset (ihmem x hx')

/-- C7: softmax sampling is sampling without replacement from the
candidate pool: whenever the pool's ids are distinct, the weights are
positive (as `exp` always is), the modelled `random.random()` draws are
below 1 and there are at least `min k |pool|` of them, the result is
duplicate-free, drawn from the pool, and of length exactly
`min k |pool|`; in particular a single-candidate pool with `k > 0`
always yields exactly that candidate. -/
theorem c7_softmax_without_replacement {α : Type} (w : ℚ → ℚ)
    (cands : List (α × ℚ)) (k : ℕ) (rands : List ℚ)
    (hw : ∀ p ∈ cands, 0 < w p.2)
    (hr : ∀ r ∈ rands, r < 1)
    (henough : min k cands.length ≤ rands.length)
    (hnd : (cands.map Prod.fst).Nodup) :
    (App.softmax_sample w cands k rands).length = min k cands.length
    ∧ (App.softmax_sample w cands k rands).Nodup
    ∧ (∀ a ∈ App.softmax_sample w cands k rands, a ∈ cands.map Prod.fst)
    ∧ (∀ x d, cands = [(x, d)] → 0 < k →
        App.softmax_sample w cands k rands = [x]) := by
  unfold App.softmax_sample
  obtain ⟨hlen, hnodup, hmem⟩ :=
    softmaxGo_spec w rands cands k hw hr henough hnd
  refine ⟨hlen, hnodup, hmem, ?_⟩
  intro x d hc hk
  subst hc
  have h1 : (App.softmaxGo w rands [(x, d)] k).length = 1 := by
    rw [hlen]
    simpa using hk
  obtain ⟨y, hy⟩ := List.length_eq_one.mp h1
  have hyx : y ∈ [x] := by
    have := hmem y (by rw [hy]; simp)
    simpa using this
  rw [hy]
  simpa using hyx

/-- Witness for C7 at a concrete pool: the single candidate "a" is
returned for a unit weight function and one random draw of 1/2. -/
theorem c7_witness :
    (∀ p ∈ [(("a" : String), (5 : ℚ))], (0:ℚ) < (fun _ => 1 : ℚ → ℚ) p.2)
    ∧ (∀ r ∈ [(1/2 : ℚ)], r < 1)
    ∧ min 30 ([(("a" : String), (5 : ℚ))]).length ≤ [(1/2 : ℚ)].length
    ∧ (([(("a" : String), (5 : ℚ))]).map Prod.fst).Nodup
    ∧ App.softmax_sample (fun _ => 1) [(("a" : String), (5 : ℚ))] 30
        [1/2] = ["a"] :=
  ⟨(by norm_num), (by norm_num), (by norm_num), (by simp)
  , (c7_softmax_without_replacement (fun _ => 1)
      [(("a" : String), (5 : ℚ))] 30 [1/2] (by norm_num) (by norm_num)
      (by norm_num) (by simp)).2.2.2 "a" 5 rfl (by norm_num)⟩

theorem vecMean_getD (v0 : List ℚ) (tl : List (List ℚ)) (j : ℕ)
    (hj : j < v0.length) :
    (App.vecMean (v0 :: tl)).getD j 0
      = (((v0 :: tl).map (fun v => v.getD j 0)).sum)
          / (((v0 :: tl).length : ℕ) : ℚ) := by
  unfold App.vecMean
  rw [List.getD_eq_getElem?_getD, List.getElem?_map,
    List.getElem?_range hj]
  rfl

theorem mean_bounds (vs : List (List ℚ)) (j : ℕ) (lo hi : ℚ)
    (hne : vs ≠ [])
    (hb : ∀ v ∈ vs, lo ≤ v.getD j 0 ∧ v.getD j 0 ≤ hi) :
    lo ≤ ((vs.map (fun v => v.getD j 0)).sum) / ((vs.length : ℕ) : ℚ)
    ∧ ((vs.map (fun v => v.getD j 0)).sum) / ((vs.length : ℕ) : ℚ) ≤ hi := by
  have hlenpos : (0:ℚ) < ((vs.length : ℕ) : ℚ) := by
    have : 0 < vs.length := List.length_pos.mpr hne
    exact_mod_cast this
  have hup : (vs.map (fun v => v.getD j 0)).sum
      ≤ (vs.map (fun v => v.getD j 0)).length • hi :=
    List.sum_le_card_nsmul _ hi (by
      intro x hx
      obtain ⟨v, hv, rfl⟩ := List.mem_map.mp hx
      exact (hb v hv).2)
  have hdown : (vs.map (fun v => v.getD j 0)).length • lo
      ≤ (vs.map (fun v => v.getD j 0)).sum :=
    List.card_nsmul_le_sum _ lo (by
      intro x hx
      obtain ⟨v, hv, rfl⟩ := List.mem_map.mp hx
      exact (hb v hv).1)
  rw [List.length_map, nsmul_eq_mul] at hup hdown
  constructor
  · rw [le_div_iff₀ hlenpos]
    calc lo * ((vs.length : ℕ) : ℚ) = ((vs.length : ℕ) : ℚ) * lo := by ring
    _ ≤ _ := hdown
  · rw [div_le_iff₀ hlenpos]
    calc (vs.map (fun v => v.getD j 0)).sum
        ≤ ((vs.length : ℕ) : ℚ) * hi := hup
    _ = hi * ((vs.length : ℕ) : ℚ) := by ring

theorem c5_tids :
    ((c5Labels.filter (fun p => p.2 == 0)).map Prod.fst) = ["t1"] := rfl

theorem c5_collect :
    App.collectVecs c5Db ["t1"] = [App.assemble_vec c5Feats] := rfl

theorem c5_query :
    App.populate_query c5Db c5Labels 0
      = some (App.vecMean [App.assemble_vec c5Feats]) := by
  simp only [App.populate_query, App.centroid_for_cluster, c5_tids,
    c5_collect]
  simp [App.assemble_vec]

theorem c5_dim0 :
    ((App.populate_query c5Db c5Labels 0).getD []).getD 0 0 = 300 := by
  rw [c5_query]
  have h0 : 0 < (App.assemble_vec c5Feats).length := by
    simp [App.assemble_vec]
  rw [Option.getD_some, vecMean_getD _ [] 0 h0]
  simp [App.assemble_vec, c5Feats]

/-- Counterexample to C5: on a database whose single cluster-0 track has
a stored tempo of 300 BPM, `populate` hands `nearest_tracks` a query
vector whose tempo dimension is 300 — outside the [0, 250] range the
claim says every query-vector dimension is clipped to, because the code
neither de-standardizes nor clips anything on this path. -/
theorem c5_counterexample :
    ((App.populate_query c5Db c5Labels 0).getD []).getD 0 0 = 300
    ∧ ¬(((App.populate_query c5Db c5Labels 0).getD []).getD 0 0 ≤ 250) := by
  rw [c5_dim0]
  norm_num

/-- C5 as amended: the Population Engine's query vector for a cluster is
the raw componentwise mean of the assembled feature vectors of the
cluster's labelled tracks, passed to the Vector Store unmodified — no
de-standardization and no clipping; consequently each dimension is
bounded by the span of the cluster's own feature values rather than by
any fixed physical range. -/
theorem c5_amended_query_is_raw_mean (db : App.AppDb)
    (labels : List (String × ℕ)) (cid : ℕ) (c : List ℚ)
    (hc : App.populate_query db labels cid = some c) :
    c = App.vecMean (App.collectVecs db
          ((labels.filter (fun p => p.2 == cid)).map Prod.fst))
    ∧ (∀ j, j < c.length → ∀ lo hi : ℚ,
        (∀ v ∈ App.collectVecs db
            ((labels.filter (fun p => p.2 == cid)).map Prod.fst),
          lo ≤ v.getD j 0 ∧ v.getD j 0 ≤ hi) →
        lo ≤ c.getD j 0 ∧ c.getD j 0 ≤ hi) := by
  unfold App.populate_query App.centroid_for_cluster at hc
  by_cases h1 :
      ((labels.filter (fun p => p.2 == cid)).map Prod.fst).isEmpty
  · rw [if_pos h1] at hc
    cases hc
  · rw [if_neg h1] at hc
    by_cases h2 : (App.collectVecs db
        ((labels.filter (fun p => p.2 == cid)).map Prod.fst)).isEmpty
    · rw [if_pos h2] at hc
      cases hc
    · rw [if_neg h2] at hc
      have hceq := (Option.some.inj hc).symm
      refine ⟨hceq, ?_⟩
      intro j hj lo hi hb
      have hvne : App.collectVecs db
          ((labels.filter (fun p => p.2 == cid)).map Prod.fst) ≠ [] := by
        intro hnil
        rw [hnil] at h2
        exact h2 rfl
      cases hvs : App.collectVecs db
          ((labels.filter (fun p => p.2 == cid)).map Prod.fst) with
      | nil => exact absurd hvs hvne
      | cons v0 tl =>
        rw [hvs] at hceq hb
        have hjv : j < v0.length := by
          rw [hceq] at hj
          unfold App.vecMean at hj
          simpa using hj
        rw [hceq, vecMean_getD v0 tl j hjv]
        exact mean_bounds (v0 :: tl) j lo hi (by simp) hb

/-- Witness for C5's amended claim on the concrete database: the 300 BPM
tempo dimension of the query vector lies within [0, 300], the span of the
cluster's own feature values. -/
theorem c5_witness :
    App.populate_query c5Db c5Labels 0
      = some (App.vecMean [App.assemble_vec c5Feats])
    ∧ ((0:ℚ) ≤ (App.vecMean [App.assemble_vec c5Feats]).getD 0 0
        ∧ (App.vecMean [App.assemble_vec c5Feats]).getD 0 0 ≤ 300) := by
  refine ⟨c5_query, (c5_amended_query_is_raw_mean c5Db c5Labels 0
      (App.vecMean [App.assemble_vec c5Feats]) c5_query).2 0 ?_ 0 300 ?_⟩
  · simp [App.vecMean, App.assemble_vec]
  · rw [c5_tids, c5_collect]
    intro v hv
    rw [List.mem_singleton] at hv
    subst hv
    constructor <;> simp [App.assemble_vec, c5Feats]

theorem find?_eq_of_unique {α : Type} {p : α → Bool} {l : List α} {a : α}
    (huniq : ∀ b ∈ l, p b = true → b = a) (ha : a ∈ l)
    (hpa : p a = true) : l.find? p = some a := by
  induction l with
  | nil => cases ha
  | cons x xs ih =>
    cases hx : p x with
    | true =>
      rw [List.find?_cons_of_pos _ hx,
        huniq x (List.mem_cons_self _ _) hx]
    | false =>
      rw [List.find?_cons_of_neg _ (by simp [hx])]
      apply ih (fun b hb hpb => huniq b (List.mem_cons_of_mem _ hb) hpb)
      rcases List.mem_cons.mp ha with rfl | h
      · rw [hpa] at hx; cases hx
      · exact h

theorem pairwise_key_eq {α β : Type} (key : α → β) (l : List α)
    (hpw : l.Pairwise (fun x y => key x ≠ key y)) :
    ∀ a ∈ l, ∀ b ∈ l, key a = key b → a = b := by
  induction l with
  | nil => intro a ha; cases ha
  | cons x xs ih =>
    rw [List.pairwise_cons] at hpw
    intro a ha b hb hk
    rcases List.mem_cons.mp ha with rfl | ha' <;>
      rcases List.mem_cons.mp hb with rfl | hb'
    · rfl
    · exact absurd hk (hpw.1 b hb')
    · exact absurd hk.symm (hpw.1 a ha')
    · exact ih hpw.2 a ha' b hb' hk

theorem pairwise_of_forall {α : Type} {R : α → α → Prop}
    (h : ∀ a b, R a b) : ∀ l : List α, l.Pairwise R := by
  intro l
  induction l with
  | nil => exact .nil
  | cons x xs ih => exact .cons (fun y _ => h x y) ih

theorem nnRows_mem {db : App.AppDb} {ver : String} {q : List ℚ}
    {fr : App.FeatRow} (h : fr ∈ App.nnRows db ver q) :
    fr ∈ db.feat ∧ fr.version = ver := by
  unfold App.nnRows at h
  have h1 := List.mem_of_mem_take h
  rw [List.mem_mergeSort] at h1
  have h2 := List.mem_filter.mp h1
  exact ⟨h2.1, by simpa using h2.2⟩

theorem nnRows_sorted (db : App.AppDb) (ver : String) (q : List ℚ) :
    (App.nnRows db ver q).Pairwise
      (fun a b => App.dist2 q a.vec ≤ App.dist2 q b.vec) := by
  unfold App.nnRows
  apply List.Pairwise.sublist (List.take_sublist _ _)
  have hs := @List.sorted_mergeSort _
    (fun a b : App.FeatRow =>
      decide (App.dist2 q a.vec ≤ App.dist2 q b.vec))
    (by intro a b c hab hbc
        simp only [decide_eq_true_eq] at *
        exact le_trans hab hbc)
    (by intro a b
        simpa using le_total (App.dist2 q a.vec) (App.dist2 q b.vec))
    (db.feat.filter (fun fr => fr.version == ver))
  exact hs.imp (fun h => of_decide_eq_true h)

theorem joinedPairs_snd_mono (db : App.AppDb) (ver : String) (q : List ℚ) :
    (App.joinedPairs db ver q).Pairwise (fun p p' => p.2 ≤ p'.2) := by
  unfold App.joinedPairs
  rw [List.pairwise_flatMap]
  constructor
  · intro fr _
    rw [List.pairwise_map]
    exact pairwise_of_forall (fun _ _ => le_refl _) _
  · apply List.Pairwise.imp ?_ (nnRows_sorted db ver q)
    intro fr1 fr2 hle x hx y hy
    obtain ⟨_, _, rfl⟩ := List.mem_map.mp hx
    obtain ⟨_, _, rfl⟩ := List.mem_map.mp hy
    exact hle

theorem joinedPairs_mem {db : App.AppDb} {ver : String} {q : List ℚ}
    {p : String × ℚ} (h : p ∈ App.joinedPairs db ver q) :
    ∃ fr, (fr ∈ db.feat ∧ fr.version = ver)
      ∧ ∃ tr ∈ db.tracks, tr.isrc = some fr.isrc
        ∧ p = (tr.tid, App.dist2 q fr.vec) := by
  unfold App.joinedPairs at h
  rw [List.mem_flatMap] at h
  obtain ⟨fr, hfr, hp⟩ := h
  obtain ⟨tr, htr, rfl⟩ := List.mem_map.mp hp
  have hmem := List.mem_filter.mp htr
  exact ⟨fr, nnRows_mem hfr, tr, hmem.1, by simpa using hmem.2, rfl⟩

theorem distOf_joined (db : App.AppDb) (ver : String) (q : List ℚ)
    (hT : db.tracks.Pairwise (fun a b => a.tid ≠ b.tid))
    (hF : db.feat.Pairwise
      (fun a b => (a.isrc, a.version) ≠ (b.isrc, b.version)))
    {p : String × ℚ} (hp : p ∈ App.joinedPairs db ver q) :
    App.distOf db ver q p.1 = p.2 := by
  obtain ⟨fr, ⟨hfrmem, hfrver⟩, tr, htrmem, htrisrc, rfl⟩ :=
    joinedPairs_mem hp
  unfold App.distOf
  have hfind1 : db.tracks.find? (fun r => r.tid == tr.tid) = some tr := by
    apply find?_eq_of_unique ?_ htrmem (by simp)
    intro b hb hpb
    exact pairwise_key_eq (fun r => r.tid) _ hT b hb tr htrmem
      (by simpa using hpb)
  have hfind2 : db.feat.find?
      (fun r => r.isrc == fr.isrc && r.version == ver) = some fr := by
    apply find?_eq_of_unique ?_ hfrmem (by simp [hfrver])
    intro b hb hpb
    simp only [Bool.and_eq_true, beq_iff_eq] at hpb
    apply pairwise_key_eq (fun r => (r.isrc, r.version)) _ hF b hb fr hfrmem
    rw [Prod.mk.injEq]
    exact ⟨hpb.1, hpb.2.trans hfrver.symm⟩
  simp only [hfind1, htrisrc, hfind2]

/-- C2: under the schema's key constraints (`track_map` keyed by
spotify_track_id, `isrc_feature` keyed by (isrc, feature_version)), the
list returned by the Vector Store's nearest query is ordered
nearest-first: the squared L2 distances — equivalently the L2 distances —
from the query vector to the backing vectors of the returned content ids
are non-decreasing along the returned order. -/
theorem c2_nearest_sorted (db : App.AppDb) (q : List ℚ) (uid : String)
    (lim : ℕ) (ver : String)
    (hT : db.tracks.Pairwise (fun a b => a.tid ≠ b.tid))
    (hF : db.feat.Pairwise
      (fun a b => (a.isrc, a.version) ≠ (b.isrc, b.version))) :
    (App.nearest_tracks db q uid lim ver).Pairwise
      (fun s t => App.distOf db ver q s ≤ App.distOf db ver q t) := by
  unfold App.nearest_tracks
  apply List.Pairwise.sublist (List.take_sublist _ _)
  rw [List.pairwise_map]
  have hfil := (joinedPairs_snd_mono db ver q).filter
    (fun p => !(db.used.contains (uid, p.1)))
  apply List.Pairwise.imp_of_mem ?_ hfil
  intro a b ha hb hle
  have ha' := List.mem_of_mem_filter ha
  have hb' := List.mem_of_mem_filter hb
  rw [distOf_joined db ver q hT hF ha', distOf_joined db ver q hT hF hb']
  exact hle

/-- Witness for C2: the key constraints hold on the one-track database
and the returned order has non-decreasing backing distances. -/
theorem c2_witness :
    c2Db.tracks.Pairwise (fun a b => a.tid ≠ b.tid)
    ∧ c2Db.feat.Pairwise
        (fun a b => (a.isrc, a.version) ≠ (b.isrc, b.version))
    ∧ (App.nearest_tracks c2Db [0] "u" 5 "essentia_v1").Pairwise
        (fun s t => App.distOf c2Db "essentia_v1" [0] s
          ≤ App.distOf c2Db "essentia_v1" [0] t) :=
  ⟨by simp [c2Db]
  , by simp [c2Db]
  , c2_nearest_sorted c2Db [0] "u" 5 "essentia_v1"
      (by simp [c2Db]) (by simp [c2Db])⟩

theorem rne_le (a k : ℕ) : App.rne a k ≤ a / 2 ^ k + 1 := by
  unfold App.rne
  dsimp only
  repeat' split
  all_goals omega

theorem pyMul07_lt {n : ℕ} (hn : 1 ≤ n) : App.pyMul07 n < (n : ℚ) := by
  simp only [App.pyMul07]
  set a := n * App.float07num with ha
  set k := (Nat.log2 a + 1) - 53 with hk
  have hfnum : App.float07num = 6305039478318694 := rfl
  have hapos : 0 < a := by
    rw [ha, hfnum]
    positivity
  have h2k : 2 ^ k ≤ 2 * n := by
    by_cases hbig : 53 ≤ Nat.log2 a + 1
    · have hk53 : k + 53 = Nat.log2 a + 1 := by omega
      have hlog : 2 ^ Nat.log2 a ≤ a := Nat.log2_self_le (by omega)
      have h1 : 2 ^ (k + 53) ≤ 2 * a := by
        rw [hk53, pow_succ]
        omega
      have h2 : 2 * a ≤ 2 * n * 2 ^ 53 := by
        rw [ha, hfnum]
        calc 2 * (n * 6305039478318694) ≤ 2 * (n * 2 ^ 53) := by
              apply Nat.mul_le_mul_left
              apply Nat.mul_le_mul_left
              norm_num
        _ = 2 * n * 2 ^ 53 := by ring
      have h3 := le_trans h1 h2
      rw [pow_add] at h3
      exact Nat.le_of_mul_le_mul_right h3 (by positivity)
    · have hk0 : k = 0 := by omega
      rw [hk0, pow_zero]
      omega
  have hrb : App.rne a k * 2 ^ k ≤ a + 2 ^ k := by
    calc App.rne a k * 2 ^ k ≤ (a / 2 ^ k + 1) * 2 ^ k :=
          Nat.mul_le_mul_right _ (rne_le a k)
    _ = a / 2 ^ k * 2 ^ k + 2 ^ k := by ring
    _ ≤ a + 2 ^ k := by
        have := Nat.div_mul_le_self a (2 ^ k)
        omega
  have hnat : App.rne a k * 2 ^ k < n * 2 ^ 53 := by
    have h1 : a + 2 ^ k ≤ n * 6305039478318694 + 2 * n := by
      rw [ha, hfnum] at *
      omega
    have h53 : (2 : ℕ) ^ 53 = 9007199254740992 := by norm_num
    rw [h53]
    omega
  rw [div_lt_iff₀ (by positivity : (0:ℚ) < 2 ^ 53)]
  have hcast : ((App.rne a k * 2 ^ k : ℕ) : ℚ) < ((n * 2 ^ 53 : ℕ) : ℚ) := by
    exact_mod_cast hnat
  calc ((App.rne a k * 2 ^ k : ℕ) : ℚ) < ((n * 2 ^ 53 : ℕ) : ℚ) := hcast
  _ = (n : ℚ) * 2 ^ 53 := by push_cast; ring

theorem keep_n_le {n : ℕ} (hn : 1 ≤ n) : App.keep_n n ≤ n := by
  unfold App.keep_n
  have h1 := pyMul07_lt hn
  have h2 : ⌊App.pyMul07 n⌋ ≤ (n : ℤ) := by
    apply Int.le_of_lt
    rw [Int.floor_lt]
    exact_mod_cast h1
  exact max_le hn (Int.toNat_le.mpr h2)

theorem keep_n_two : App.keep_n 2 = 1 := by
  have ha : 2 * App.float07num = 12610078956637388 := by
    norm_num [App.float07num]
  have hlog : Nat.log2 12610078956637388 = 53 := by
    have hne : (12610078956637388:ℕ) ≠ 0 := by norm_num
    have hle : 53 ≤ Nat.log2 12610078956637388 :=
      (Nat.le_log2 hne).mpr (by norm_num)
    have hlt : Nat.log2 12610078956637388 < 54 :=
      (Nat.log2_lt hne).mpr (by norm_num)
    omega
  have hr : App.rne 12610078956637388 (53 + 1 - 53) = 6305039478318694 := by
    norm_num [App.rne]
  have hp : App.pyMul07 2 = (12610078956637388 : ℚ) / 2 ^ 53 := by
    simp only [App.pyMul07, ha, hlog, hr]
    norm_num
  unfold App.keep_n
  rw [hp]
  have hf : ⌊(12610078956637388 : ℚ) / 2 ^ 53⌋ = 1 := by
    rw [Int.floor_eq_iff]
    norm_num
  rw [hf]
  rfl

theorem keep_n_three : App.keep_n 3 = 2 := by
  have ha : 3 * App.float07num = 18915118434956082 := by
    norm_num [App.float07num]
  have hlog : Nat.log2 18915118434956082 = 54 := by
    have hne : (18915118434956082:ℕ) ≠ 0 := by norm_num
    have hle : 54 ≤ Nat.log2 18915118434956082 :=
      (Nat.le_log2 hne).mpr (by norm_num)
    have hlt : Nat.log2 18915118434956082 < 55 :=
      (Nat.log2_lt hne).mpr (by norm_num)
    omega
  have hr : App.rne 18915118434956082 (54 + 1 - 53) = 4728779608739020 := by
    norm_num [App.rne]
  have hp : App.pyMul07 3 = (18915118434956080 : ℚ) / 2 ^ 53 := by
    simp only [App.pyMul07, ha, hlog, hr]
    norm_num
  unfold App.keep_n
  rw [hp]
  have hf : ⌊(18915118434956080 : ℚ) / 2 ^ 53⌋ = 2 := by
    rw [Int.floor_eq_iff]
    norm_num
  rw [hf]
  rfl

theorem mem_take_of_pair_sublist {α : Type} {x y : α} :
    ∀ {l : List α} {n : ℕ}, List.Sublist [x, y] l → l.Nodup →
      y ∈ l.take n → x ∈ l.take n := by
  intro l
  induction l with
  | nil =>
    intro n hs hnd hy
    simp at hs
  | cons z t ih =>
    intro n hs hnd hy
    cases n with
    | zero => simp at hy
    | succ m =>
      rw [List.take_succ_cons] at hy ⊢
      cases hs with
      | cons _ hs' =>
        rcases List.mem_cons.mp hy with rfl | hy'
        · have hyt : y ∈ t := hs'.subset (by simp)
          exact absurd hyt (List.nodup_cons.mp hnd).1
        · exact List.mem_cons_of_mem _
            (ih hs' (List.nodup_cons.mp hnd).2 hy')
      | cons₂ _ hs' =>
        exact List.mem_cons_self _ _

theorem pySortedDesc_perm (F : List (String × ℤ)) :
    (App.pySortedDesc F).Perm F :=
  List.mergeSort_perm F _

theorem pySortedDesc_sorted (F : List (String × ℤ)) :
    (App.pySortedDesc F).Pairwise (fun p r => r.2 ≤ p.2) := by
  have hs := @List.sorted_mergeSort _
    (fun a b : String × ℤ => decide (b.2 ≤ a.2))
    (by intro a b c hab hbc
        simp only [decide_eq_true_eq] at *
        exact le_trans hbc hab)
    (by intro a b
        simpa using le_total b.2 a.2)
    F
  exact hs.imp (fun h => of_decide_eq_true h)

theorem elite_spec (F : List (String × ℤ)) (K : ℕ)
    (hKle : K ≤ F.length) (hnd : (F.map Prod.fst).Nodup) :
    (((App.pySortedDesc F).take K).map Prod.fst).length = K
    ∧ (∀ t ∈ ((App.pySortedDesc F).take K).map Prod.fst,
        t ∈ F.map Prod.fst)
    ∧ (((App.pySortedDesc F).take K).map Prod.fst).Nodup
    ∧ (∀ p ∈ F, ∀ r ∈ F,
        p.1 ∈ ((App.pySortedDesc F).take K).map Prod.fst →
        r.1 ∉ ((App.pySortedDesc F).take K).map Prod.fst → r.2 ≤ p.2)
    ∧ (∀ (a b : String) (s : ℤ),
        List.Sublist [(a, s), (b, s)] F →
        b ∈ ((App.pySortedDesc F).take K).map Prod.fst →
        a ∈ ((App.pySortedDesc F).take K).map Prod.fst) := by
  have hperm := pySortedDesc_perm F
  have hsorted := pySortedDesc_sorted F
  have hSfst : ((App.pySortedDesc F).map Prod.fst).Nodup :=
    ((hperm.map Prod.fst).nodup_iff).mpr hnd
  have hSnodup : (App.pySortedDesc F).Nodup := List.Nodup.of_map _ hSfst
  have hSpw : (App.pySortedDesc F).Pairwise (fun a b => a.1 ≠ b.1) :=
    List.pairwise_map.mp hSfst
  refine ⟨?_, ?_, ?_, ?_, ?_⟩
  · rw [List.length_map, List.length_take, hperm.length_eq]
    omega
  · intro t ht
    obtain ⟨p, hp, rfl⟩ := List.mem_map.mp ht
    exact List.mem_map_of_mem _ (hperm.mem_iff.mp (List.mem_of_mem_take hp))
  · rw [List.map_take]
    exact List.Nodup.sublist (List.take_sublist _ _) hSfst
  · intro p hp r hr hpE hrE
    have hpS : p ∈ App.pySortedDesc F := hperm.mem_iff.mpr hp
    have hrS : r ∈ App.pySortedDesc F := hperm.mem_iff.mpr hr
    obtain ⟨p', hp', hp'1⟩ := List.mem_map.mp hpE
    have hpp' : p' = p :=
      pairwise_key_eq Prod.fst _ hSpw p' (List.mem_of_mem_take hp') p hpS hp'1
    have hrtake : r ∉ (App.pySortedDesc F).take K :=
      fun hc => hrE (List.mem_map_of_mem _ hc)
    have hrdrop : r ∈ (App.pySortedDesc F).drop K := by
      have hsplit : r ∈ (App.pySortedDesc F).take K
          ++ (App.pySortedDesc F).drop K := by
        rw [List.take_append_drop]
        exact hrS
      rcases List.mem_append.mp hsplit with h | h
      · exact absurd h hrtake
      · exact h
    have hpwsplit : ((App.pySortedDesc F).take K
        ++ (App.pySortedDesc F).drop K).Pairwise
          (fun p r => r.2 ≤ p.2) := by
      rw [List.take_append_drop]
      exact hsorted
    have hcross := (List.pairwise_append.mp hpwsplit).2.2
    have hle := hcross p' hp' r hrdrop
    rw [hpp'] at hle
    exact hle
  · intro a b s hsub hbE
    have hpair : List.Sublist [(a, s), (b, s)] (App.pySortedDesc F) := by
      apply List.pair_sublist_mergeSort
      · intro x y z hxy hyz
        simp only [decide_eq_true_eq] at *
        exact le_trans hyz hxy
      · intro x y
        simpa using le_total y.2 x.2
      · simp
      · exact hsub
    obtain ⟨q, hq, hq1⟩ := List.mem_map.mp hbE
    have hbS : (b, s) ∈ App.pySortedDesc F := hpair.subset (by simp)
    have hqb : q = (b, s) :=
      pairwise_key_eq Prod.fst _ hSpw q (List.mem_of_mem_take hq)
        (b, s) hbS (by simpa using hq1)
    rw [hqb] at hq
    have haS : (a, s) ∈ (App.pySortedDesc F).take K :=
      mem_take_of_pair_sublist hpair hSnodup hq
    exact List.mem_map_of_mem _ haS

/-- Counterexample to C3: on a generation of size 2 the code's
`max(1, int(len(last)*0.7))` keeps a single elite track, whereas the
claimed `ceil(0.7 × N)` would keep 2 — the code truncates the float
product, it does not take a ceiling. -/
theorem c3_counterexample :
    (App.eliteOf ["a", "b"] [false, false] [] ["a", "b"]).length = 1
    ∧ (⌈(7 : ℚ) / 10 * 2⌉ : ℤ) = 2 := by
  constructor
  · have hF : App.fitnessList ["a", "b"] [false, false] [] ["a", "b"]
        = [("a", -2), ("b", -2)] := by
      norm_num [App.fitnessList, App.score]
    have hS : App.pySortedDesc [(("a" : String), (-2 : ℤ)), ("b", -2)]
        = [("a", -2), ("b", -2)] := by
      unfold App.pySortedDesc
      rw [List.mergeSort]
      simp [List.merge]
    unfold App.eliteOf
    rw [hF, hS, show (["a", "b"] : List String).length = 2 from rfl,
      keep_n_two]
    rfl
  · rw [Int.ceil_eq_iff]
    norm_num

/-- C3 as amended: on each refinement invocation over a non-empty
generation of size N with distinct track ids, the elite survivor set is
exactly the top `max(1, int(N*0.7))` tracks — `int` truncating the
IEEE-754 double product, not a ceiling — ranked by fitness descending
with ties broken by original generation order (stable sort): it has
exactly that size, consists of generation members without duplicates,
every non-elite track scores no higher than every elite track, and of
two equally-scored tracks in generation order the earlier one is kept
whenever the later one is. -/
theorem c3_amended_elitism (last : List String) (saved : List Bool)
    (played now_ids : List String)
    (hne : last ≠ []) (hlen : saved.length = last.length)
    (hnd : last.Nodup) :
    (App.eliteOf last saved played now_ids).length
      = App.keep_n last.length
    ∧ (∀ t ∈ App.eliteOf last saved played now_ids, t ∈ last)
    ∧ (App.eliteOf last saved played now_ids).Nodup
    ∧ (∀ p ∈ App.fitnessList last saved played now_ids,
       ∀ r ∈ App.fitnessList last saved played now_ids,
        p.1 ∈ App.eliteOf last saved played now_ids →
        r.1 ∉ App.eliteOf last saved played now_ids → r.2 ≤ p.2)
    ∧ (∀ (a b : String) (s : ℤ),
        List.Sublist [(a, s), (b, s)]
          (App.fitnessList last saved played now_ids) →
        b ∈ App.eliteOf last saved played now_ids →
        a ∈ App.eliteOf last saved played now_ids) := by
  have hFfst : (App.fitnessList last saved played now_ids).map Prod.fst
      = last := by
    unfold App.fitnessList
    rw [List.map_map]
    have hcomp : (Prod.fst ∘ fun p : String × Bool =>
        (p.1, App.score p.2 (played.contains p.1) (now_ids.contains p.1)))
        = Prod.fst := rfl
    rw [hcomp]
    exact List.map_fst_zip _ _ hlen.ge
  have hFlen : (App.fitnessList last saved played now_ids).length
      = last.length := by
    have := congrArg List.length hFfst
    simpa using this
  have hone : 1 ≤ last.length := List.length_pos.mpr hne
  have hnd' : ((App.fitnessList last saved played now_ids).map
      Prod.fst).Nodup := by
    rw [hFfst]
    exact hnd
  obtain ⟨h1, h2, h3, h4, h5⟩ := elite_spec
    (App.fitnessList last saved played now_ids)
    (App.keep_n last.length)
    (by rw [hFlen]; exact keep_n_le hone) hnd'
  have hE : App.eliteOf last saved played now_ids
      = ((App.pySortedDesc (App.fitnessList last saved played
          now_ids)).take (App.keep_n last.length)).map Prod.fst := rfl
  rw [hE]
  refine ⟨h1, ?_, h3, h4, h5⟩
  intro t ht
  have hmem := h2 t ht
  rwa [hFfst] at hmem

/-- Witness for C3's amended claim on a concrete 3-track generation
(one saved, one played, one untouched): all hypotheses hold and the
theorem's conclusions follow at this input. -/
theorem c3_witness :
    (["a", "b", "c"] : List String) ≠ []
    ∧ ([true, false, false] : List Bool).length
        = (["a", "b", "c"] : List String).length
    ∧ (["a", "b", "c"] : List String).Nodup
    ∧ ((App.eliteOf ["a", "b", "c"] [true, false, false] ["b"]
          ["a", "b", "c"]).length
        = App.keep_n (["a", "b", "c"] : List String).length
      ∧ (∀ t ∈ App.eliteOf ["a", "b", "c"] [true, false, false] ["b"]
            ["a", "b", "c"], t ∈ (["a", "b", "c"] : List String))
      ∧ (App.eliteOf ["a", "b", "c"] [true, false, false] ["b"]
          ["a", "b", "c"]).Nodup
      ∧ (∀ p ∈ App.fitnessList ["a", "b", "c"] [true, false, false]
            ["b"] ["a", "b", "c"],
         ∀ r ∈ App.fitnessList ["a", "b", "c"] [true, false, false]
            ["b"] ["a", "b", "c"],
          p.1 ∈ App.eliteOf ["a", "b", "c"] [true, false, false] ["b"]
            ["a", "b", "c"] →
          r.1 ∉ App.eliteOf ["a", "b", "c"] [true, false, false] ["b"]
            ["a", "b", "c"] → r.2 ≤ p.2)
      ∧ (∀ (a b : String) (s : ℤ),
          List.Sublist [(a, s), (b, s)]
            (App.fitnessList ["a", "b", "c"] [true, false, false] ["b"]
              ["a", "b", "c"]) →
          b ∈ App.eliteOf ["a", "b", "c"] [true, false, false] ["b"]
            ["a", "b", "c"] →
          a ∈ App.eliteOf ["a", "b", "c"] [true, false, false] ["b"]
            ["a", "b", "c"])) :=
  ⟨by decide, rfl, by decide
  , c3_amended_elitism ["a", "b", "c"] [true, false, false] ["b"]
      ["a", "b", "c"] (by decide) rfl (by decide)⟩

end Dolphin
